import Mathlib

/-!
Verification of the DocuSeal template reconciliation engine
(`src/pdf_gen_data/src/services/config.service.ts`, sync part).

The development shallowly embeds the data model and the three core
operations — `extractFieldNames`, `mergeTemplate`, `detectStaleTemplates` —
together with the fold the entry point performs over the remote catalog.
JavaScript objects used as string-keyed records are embedded as
insertion-ordered association lists; a JS `Set` used only for
deduplication is embedded as a list with a membership check before
insertion; `Array.findIndex` is embedded as an `Option Nat`-valued first
index function.
-/

namespace PdfGenSync

/-- One entry of `mapping_config.json` (`TemplateConfigSchema` in
`src/types.ts`): identifier, name, optional description, and the
field-name → generation-expression record, kept in insertion order. -/
structure TemplateConfig where
  docuseal_template_id : Int
  name : String
  description : Option String
  fields : List (String × String)
deriving DecidableEq

/-- A field object of the DocuSeal API (`DocuSealApiFieldSchema`):
only the `name` member is relevant to the engine. -/
structure ApiField where
  name : String
deriving DecidableEq

/-- A submitter role of a remote template (`DocuSealApiSubmitterSchema`);
its field list is optional. -/
structure ApiSubmitter where
  fields : Option (List ApiField)
deriving DecidableEq

/-- A document of a remote template (`DocuSealApiDocumentSchema`);
its field list is optional. -/
structure ApiDocument where
  fields : Option (List ApiField)
deriving DecidableEq

/-- A remote template as returned by `GET /api/templates`
(`DocuSealApiTemplateSchema`): id, name, and three optional field
carriers. -/
structure DocuSealApiTemplate where
  id : Int
  name : String
  fields : Option (List ApiField)
  submitters : Option (List ApiSubmitter)
  documents : Option (List ApiDocument)
deriving DecidableEq

/-- The `SyncStats` accumulator of sync.ts. -/
structure SyncStats where
  updated : List String
  added : List String
  stale : List String
  todoCount : Nat
deriving DecidableEq

/-- Sentinel value placed in fields that have no Faker mapping yet
(`TODO_VALUE` in sync.ts). -/
def TODO_VALUE : String := "TODO: assign faker method"

/-- Drop leading whitespace characters from a character list. -/
def dropLeadingWS : List Char → List Char
  | [] => []
  | c :: cs => if c.isWhitespace then dropLeadingWS cs else c :: cs

/-- Embedding of the JS built-in `String.prototype.trim`: remove
whitespace from both ends of the string. -/
def strTrim (s : String) : String :=
  ⟨dropLeadingWS ((dropLeadingWS s.data.reverse).reverse)⟩

/-- Embedding of the JS built-in `String.prototype.toLowerCase`,
modelled at the level the engine relies on: lower-case every character. -/
def strToLower (s : String) : String := ⟨s.data.map Char.toLower⟩

/-- The JS normalisation `s.toLowerCase().trim()` used for name
comparisons. -/
def normName (s : String) : String := strTrim (strToLower s)

/-- Embedding of `Array.prototype.findIndex`: index of the first element
satisfying `p`, or `none` (JS returns `-1`). -/
def findIndex (p : α → Bool) : List α → Option Nat
  | [] => none
  | x :: xs => if p x then some 0 else (findIndex p xs).map (· + 1)

/-- JS `name in record` test on the association-list embedding of a
string-keyed object. -/
def hasKey (fs : List (String × String)) (k : String) : Bool :=
  fs.any (fun p => p.1 == k)

/-- JS `record[k] = v` on the association-list embedding: overwrite in
place when the key exists, append otherwise. -/
def setKey (fs : List (String × String)) (k v : String) : List (String × String) :=
  if hasKey fs k then fs.map (fun p => if p.1 == k then (p.1, v) else p)
  else fs ++ [(k, v)]

/-- The `newFields` loop of the new-template branch of `mergeTemplate`:
assign `TODO_VALUE` to every extracted field name, starting from an
empty record. -/
def buildNewFields (ns : List String) : List (String × String) :=
  ns.foldl (fun fs n => setKey fs n TODO_VALUE) []

/-- The field-merge loop of the matched branch of `mergeTemplate`:
for each extracted name, add it with `TODO_VALUE` only when it is not
already a key. -/
def mergeFields (fs : List (String × String)) (ns : List String) : List (String × String) :=
  ns.foldl (fun acc n => if hasKey acc n then acc else acc ++ [(n, TODO_VALUE)]) fs

/-- `Object.values(fields).filter(v => v === TODO_VALUE).length`. -/
def sentinelCount (fs : List (String × String)) : Nat :=
  (fs.filter (fun p => p.2 == TODO_VALUE)).length

/-- The `collect` helper of `extractFieldNames`: push trimmed, non-empty
names of an optional field array into the accumulating `Set`, skipping
names already present. -/
def collectFrom (acc : List String) (fs : Option (List ApiField)) : List String :=
  (fs.getD []).foldl
    (fun a f =>
      let t := strTrim f.name
      if t = "" then a else if a.contains t then a else a ++ [t])
    acc

/-- `extractFieldNames` of sync.ts: harvest names from the template's own
fields, then from every submitter, then from every document. -/
def extractFieldNames (t : DocuSealApiTemplate) : List String :=
  let n1 := collectFrom [] t.fields
  let n2 := (t.submitters.getD []).foldl (fun a s => collectFrom a s.fields) n1
  (t.documents.getD []).foldl (fun a d => collectFrom a d.fields) n2

/-- The matching strategy of `mergeTemplate`: first index matching by
identifier (reason `id`, encoded `true`), otherwise first index matching
by normalised name (reason `name`, encoded `false`), otherwise `none`
(reason `new`). -/
def matchOf (L : List TemplateConfig) (a : DocuSealApiTemplate) : Option (Nat × Bool) :=
  match findIndex (fun t => t.docuseal_template_id == a.id) L with
  | some i => some (i, true)
  | none =>
    match findIndex (fun t => normName t.name == normName a.name) L with
    | some i => some (i, false)
    | none => none

/-- The result of merging a remote template into a matched local entry:
identifier and name are overwritten with the remote values, the
description is kept, and the fields are merged non-destructively. -/
def updatedEntry (e : TemplateConfig) (a : DocuSealApiTemplate) (ns : List String) : TemplateConfig :=
  { docuseal_template_id := a.id
    name := a.name
    description := e.description
    fields := mergeFields e.fields ns }

/-- The brand-new entry appended when neither match succeeds. -/
def newEntryOf (a : DocuSealApiTemplate) (ns : List String) : TemplateConfig :=
  { docuseal_template_id := a.id
    name := a.name
    description := some "TODO: add description"
    fields := buildNewFields ns }

/-- The label pushed to `stats.updated` for a matched template. -/
def updateLabel (a : DocuSealApiTemplate) (byId : Bool) : String :=
  if byId then a.name else a.name ++ "  (ID corrected via name-match)"

/-- `mergeTemplate` of sync.ts: merge one remote template into the local
list, returning the new list together with the updated stats (the source
mutates `stats` in place; the embedding threads it explicitly). -/
def mergeTemplate (L : List TemplateConfig) (a : DocuSealApiTemplate)
    (ns : List String) (st : SyncStats) : List TemplateConfig × SyncStats :=
  match matchOf L a with
  | none =>
    (L ++ [newEntryOf a ns],
      { st with added := st.added ++ [a.name], todoCount := st.todoCount + ns.length })
  | some (i, byId) =>
    match L[i]? with
    | none => (L, st)
    | some e =>
      let merged := mergeFields e.fields ns
      (L.set i (updatedEntry e a ns),
        { st with
            updated := st.updated ++ [updateLabel a byId]
            todoCount := st.todoCount + sentinelCount merged })

/-- The merge loop of `main` (step 4 of sync.ts): fold `mergeTemplate`
over the remote catalog in list order, extracting field names per
template. -/
def runMerge (L : List TemplateConfig) : List DocuSealApiTemplate → SyncStats → List TemplateConfig × SyncStats
  | [], st => (L, st)
  | t :: ts, st =>
    let r := mergeTemplate L t (extractFieldNames t) st
    runMerge r.1 ts r.2

/-- `detectStaleTemplates` of sync.ts: report every original local entry
whose identifier is not among the remote identifiers and whose
normalised name is not among the remote normalised names. -/
def detectStaleTemplates (originalLocal : List TemplateConfig)
    (apiTemplates : List DocuSealApiTemplate) (st : SyncStats) : SyncStats :=
  let apiIds := apiTemplates.map (fun t => t.id)
  let apiNames := apiTemplates.map (fun t => normName t.name)
  originalLocal.foldl
    (fun s t =>
      let existsById := apiIds.contains t.docuseal_template_id
      let existsByName := apiNames.contains (normName t.name)
      if !existsById && !existsByName then { s with stale := s.stale ++ [t.name] } else s)
    st

/-- Fresh stats, as created at the start of `main`. -/
def initStats : SyncStats := ⟨[], [], [], 0⟩

/-- Steps 4–5 of `main`: fold the catalog into the local list starting
from fresh stats, then run stale detection against the pre-merge
snapshot of the local list. -/
def syncMain (L : List TemplateConfig) (ts : List DocuSealApiTemplate) :
    List TemplateConfig × SyncStats :=
  let r := runMerge L ts initStats
  (r.1, detectStaleTemplates L ts r.2)

/-- Total number of sentinel-valued fields across a whole template list. -/
def totalSentinels (L : List TemplateConfig) : Nat :=
  (L.map (fun e => sentinelCount e.fields)).sum

/-- The stale-marking condition of `detectStaleTemplates`, as a Boolean
predicate on one local entry. -/
def staleFlag (apiTemplates : List DocuSealApiTemplate) (e : TemplateConfig) : Bool :=
  apiTemplates.all (fun t => !(t.id == e.docuseal_template_id)) &&
    apiTemplates.all (fun t => !(normName t.name == normName e.name))

/-- The `TemplateConfigSchema` invariants on one local entry: positive
identifier, non-empty name, unique non-empty field keys, non-empty
field values. -/
def LocalInvariant (e : TemplateConfig) : Prop :=
  0 < e.docuseal_template_id ∧ e.name ≠ "" ∧
  (e.fields.map Prod.fst).Nodup ∧
  ∀ p ∈ e.fields, p.1 ≠ "" ∧ p.2 ≠ ""

instance (e : TemplateConfig) : Decidable (LocalInvariant e) := by
  unfold LocalInvariant
  infer_instance

/-- The `DocuSealApiTemplateSchema` constraints a validated remote
template satisfies: positive identifier and non-empty name. -/
def SchemaValidRemote (t : DocuSealApiTemplate) : Prop :=
  0 < t.id ∧ t.name ≠ ""

instance (t : DocuSealApiTemplate) : Decidable (SchemaValidRemote t) := by
  unfold SchemaValidRemote
  infer_instance

/-- Index of the first local entry matching a remote template by
identifier — the position the second run's identifier search finds. -/
def ownerIdx (L : List TemplateConfig) (u : DocuSealApiTemplate) : Option Nat :=
  findIndex (fun t => t.docuseal_template_id == u.id) L

/-- Sentinel count of the entry at the owner index (0 when absent). -/
def ownedCount (L : List TemplateConfig) (u : DocuSealApiTemplate) : Nat :=
  match ownerIdx L u with
  | none => 0
  | some i =>
    match L[i]? with
    | none => 0
    | some e => sentinelCount e.fields

/-- A remote template is settled in a list when the first entry matching
its identifier also carries its exact name and all its extracted field
names — the state `mergeTemplate` leaves behind. -/
def Owns (L : List TemplateConfig) (u : DocuSealApiTemplate) : Prop :=
  ∃ i e, ownerIdx L u = some i ∧ L[i]? = some e ∧ e.name = u.name ∧
    ∀ n ∈ extractFieldNames u, hasKey e.fields n = true

/-- All raw field names a remote template carries, in the three schema
locations read by `extractFieldNames`: top level, per submitter, per
document. -/
def allRawFieldNames (t : DocuSealApiTemplate) : List String :=
  (t.fields.getD []).map (fun f => f.name)
    ++ (t.submitters.getD []).flatMap (fun s => (s.fields.getD []).map (fun f => f.name))
    ++ (t.documents.getD []).flatMap (fun d => (d.fields.getD []).map (fun f => f.name))

section ListLemmas

variable {α : Type _}

/-- Characterisation of an unsuccessful `findIndex`. -/
theorem findIndex_eq_none_iff {p : α → Bool} {l : List α} :
    findIndex p l = none ↔ ∀ a ∈ l, p a = false := by
  induction l with
  | nil => simp [findIndex]
  | cons x xs ih =>
    by_cases hx : p x
    · simp [findIndex, hx]
    · have hx' : p x = false := by simpa using hx
      simp [findIndex, hx', ih]

/-- A successful `findIndex` returns the first index whose element
satisfies the predicate. -/
theorem findIndex_eq_some_spec {p : α → Bool} {l : List α} {i : Nat}
    (h : findIndex p l = some i) :
    ∃ a, l[i]? = some a ∧ p a = true ∧
      ∀ j b, j < i → l[j]? = some b → p b = false := by
  induction l generalizing i with
  | nil => simp [findIndex] at h
  | cons x xs ih =>
    by_cases hx : p x
    · simp only [findIndex, hx, if_pos] at h
      obtain rfl : (0 : Nat) = i := by simpa using h
      exact ⟨x, by simp, hx, fun j b hj => by omega⟩
    · simp only [findIndex, hx, if_neg, Bool.false_eq_true, if_false, Option.map_eq_some'] at h
      obtain ⟨k, hk, rfl⟩ := h
      obtain ⟨a, hget, hpa, hfirst⟩ := ih hk
      refine ⟨a, by simpa using hget, hpa, ?_⟩
      intro j b hj hgb
      cases j with
      | zero =>
        simp only [List.getElem?_cons_zero, Option.some.injEq] at hgb
        subst hgb
        simpa using hx
      | succ j' =>
        simp only [List.getElem?_cons_succ] at hgb
        exact hfirst j' b (by omega) hgb

/-- Converse: an element satisfying the predicate, preceded only by
elements that do not, pins down `findIndex`. -/
theorem findIndex_eq_some_of {p : α → Bool} {l : List α} {i : Nat} {a : α}
    (hget : l[i]? = some a) (hpa : p a = true)
    (hfirst : ∀ j b, j < i → l[j]? = some b → p b = false) :
    findIndex p l = some i := by
  induction l generalizing i with
  | nil => simp at hget
  | cons x xs ih =>
    cases i with
    | zero =>
      simp only [List.getElem?_cons_zero, Option.some.injEq] at hget
      subst hget
      simp [findIndex, hpa]
    | succ i' =>
      have hx : p x = false := hfirst 0 x (Nat.succ_pos _) (by simp)
      simp only [List.getElem?_cons_succ] at hget
      have := ih hget (fun j b hj hgb =>
        hfirst (j + 1) b (by omega) (by simpa using hgb))
      simp [findIndex, hx, this]

/-- A successful `findIndex` is in bounds. -/
theorem findIndex_lt_length {p : α → Bool} {l : List α} {i : Nat}
    (h : findIndex p l = some i) : i < l.length := by
  obtain ⟨a, hget, -, -⟩ := findIndex_eq_some_spec h
  exact (List.getElem?_eq_some.mp hget).1

/-- Setting an index to the value it already holds is the identity. -/
theorem set_eq_self_of_getElem? {l : List α} {i : Nat} {a : α}
    (h : l[i]? = some a) : l.set i a = l := by
  induction l generalizing i with
  | nil => simp at h
  | cons x xs ih =>
    cases i with
    | zero =>
      simp only [List.getElem?_cons_zero, Option.some.injEq] at h
      simp [h]
    | succ i' =>
      simp only [List.getElem?_cons_succ] at h
      simp [List.set_cons_succ, ih h]

end ListLemmas

section FieldLemmas

/-- `hasKey` is key membership. -/
theorem hasKey_iff {fs : List (String × String)} {k : String} :
    hasKey fs k = true ↔ ∃ v, (k, v) ∈ fs := by
  simp only [hasKey, List.any_eq_true, beq_iff_eq]
  constructor
  · rintro ⟨⟨k', v⟩, hmem, rfl⟩
    exact ⟨v, hmem⟩
  · rintro ⟨v, hmem⟩
    exact ⟨(k, v), hmem, rfl⟩

/-- A record has no key `k` exactly when `lookup k` fails. -/
theorem hasKey_eq_false_iff_lookup_eq_none {fs : List (String × String)} {k : String} :
    hasKey fs k = false ↔ fs.lookup k = none := by
  induction fs with
  | nil => simp [hasKey]
  | cons p fs ih =>
    obtain ⟨k', v⟩ := p
    by_cases hk : k' = k
    · subst hk
      simp [hasKey, List.lookup_cons]
    · have h1 : (k' == k) = false := by simpa using hk
      have h2 : (k == k') = false := by simpa using (Ne.symm hk)
      simp [hasKey, List.lookup_cons, h1, h2] at *
      exact ih

/-- A successful lookup survives appending further pairs on the right. -/
theorem lookup_append_left {fs gs : List (String × String)} {k : String} {v : String}
    (h : fs.lookup k = some v) : (fs ++ gs).lookup k = some v := by
  rw [List.lookup_append, h, Option.or]

/-- One step of the field-merge loop preserves every successful lookup. -/
theorem lookup_mergeFields_of_some {fs : List (String × String)} {ns : List String}
    {k v : String} (h : fs.lookup k = some v) :
    (mergeFields fs ns).lookup k = some v := by
  induction ns generalizing fs with
  | nil => simpa [mergeFields] using h
  | cons n ns ih =>
    simp only [mergeFields, List.foldl_cons]
    by_cases hn : hasKey fs n
    · rw [if_pos hn]
      exact ih h
    · rw [if_neg hn]
      exact ih (lookup_append_left h)

/-- A name missing from the record and present in the merged-in list is
looked up to the sentinel after the merge. -/
theorem lookup_mergeFields_of_none {fs : List (String × String)} {ns : List String}
    {n : String} (hmem : n ∈ ns) (h : fs.lookup n = none) :
    (mergeFields fs ns).lookup n = some TODO_VALUE := by
  induction ns generalizing fs with
  | nil => simp at hmem
  | cons m ns ih =>
    simp only [mergeFields, List.foldl_cons]
    by_cases heq : m = n
    · subst heq
      have hk : hasKey fs m = false := hasKey_eq_false_iff_lookup_eq_none.mpr h
      rw [if_neg (by simp [hk])]
      have hfull : (fs ++ [(m, TODO_VALUE)]).lookup m = some TODO_VALUE := by
        rw [List.lookup_append, h, Option.or]
        simp [List.lookup_cons]
      exact lookup_mergeFields_of_some hfull
    · have hmem' : n ∈ ns := by
        rcases List.mem_cons.mp hmem with h' | h'
        · exact absurd h'.symm heq
        · exact h'
      by_cases hm : hasKey fs m
      · rw [if_pos hm]
        exact ih hmem' h
      · rw [if_neg hm]
        refine ih hmem' ?_
        rw [List.lookup_append, h, Option.or]
        have : (n == m) = false := by simpa using heq ∘ Eq.symm
        simp [List.lookup_cons, this]

/-- The field-merge loop never removes a key. -/
theorem hasKey_mergeFields_of_hasKey {fs : List (String × String)} {ns : List String}
    {k : String} (h : hasKey fs k = true) :
    hasKey (mergeFields fs ns) k = true := by
  induction ns generalizing fs with
  | nil => simpa [mergeFields] using h
  | cons n ns ih =>
    simp only [mergeFields, List.foldl_cons]
    by_cases hn : hasKey fs n
    · rw [if_pos hn]; exact ih h
    · rw [if_neg hn]
      refine ih ?_
      rcases hasKey_iff.mp h with ⟨v, hv⟩
      exact hasKey_iff.mpr ⟨v, List.mem_append_left _ hv⟩

/-- Every merged-in name is a key after the field-merge loop. -/
theorem hasKey_mergeFields_of_mem {fs : List (String × String)} {ns : List String}
    {n : String} (hmem : n ∈ ns) :
    hasKey (mergeFields fs ns) n = true := by
  induction ns generalizing fs with
  | nil => simp at hmem
  | cons m ns ih =>
    simp only [mergeFields, List.foldl_cons]
    by_cases heq : m = n
    · subst heq
      by_cases hm : hasKey fs m
      · rw [if_pos hm]
        exact hasKey_mergeFields_of_hasKey hm
      · rw [if_neg hm]
        have : hasKey (fs ++ [(m, TODO_VALUE)]) m = true :=
          hasKey_iff.mpr ⟨TODO_VALUE, by simp⟩
        exact hasKey_mergeFields_of_hasKey this
    · have hmem' : n ∈ ns := by
        rcases List.mem_cons.mp hmem with h' | h'
        · exact absurd h'.symm heq
        · exact h'
      by_cases hm : hasKey fs m
      · rw [if_pos hm]; exact ih hmem'
      · rw [if_neg hm]; exact ih hmem'

/-- When every merged-in name is already a key, the field-merge loop is
the identity. -/
theorem mergeFields_eq_self {fs : List (String × String)} {ns : List String}
    (h : ∀ n ∈ ns, hasKey fs n = true) : mergeFields fs ns = fs := by
  induction ns with
  | nil => rfl
  | cons n ns ih =>
    simp only [mergeFields, List.foldl_cons] at *
    rw [if_pos (h n (List.mem_cons_self n ns))]
    exact ih (fun m hm => h m (List.mem_cons_of_mem _ hm))

/-- Membership in a merged field record: either an original pair, or a
merged-in name carrying the sentinel. -/
theorem mem_mergeFields {fs : List (String × String)} {ns : List String} {p : String × String}
    (h : p ∈ mergeFields fs ns) : p ∈ fs ∨ (p.1 ∈ ns ∧ p.2 = TODO_VALUE) := by
  induction ns generalizing fs with
  | nil => exact Or.inl h
  | cons n ns ih =>
    simp only [mergeFields, List.foldl_cons] at h
    by_cases hn : hasKey fs n
    · rw [if_pos hn] at h
      rcases ih h with h' | h'
      · exact Or.inl h'
      · exact Or.inr ⟨List.mem_cons_of_mem _ h'.1, h'.2⟩
    · rw [if_neg hn] at h
      rcases ih h with h' | h'
      · rcases List.mem_append.mp h' with h'' | h''
        · exact Or.inl h''
        · simp only [List.mem_singleton] at h''
          subst h''
          exact Or.inr ⟨List.mem_cons_self _ _, rfl⟩
      · exact Or.inr ⟨List.mem_cons_of_mem _ h'.1, h'.2⟩

/-- The keys of a merged field record are the original keys plus merged-in
names, so key uniqueness is preserved when merged-in names are deduplicated
against the record. -/
theorem keys_nodup_mergeFields {fs : List (String × String)} {ns : List String}
    (h : (fs.map Prod.fst).Nodup) : ((mergeFields fs ns).map Prod.fst).Nodup := by
  induction ns generalizing fs with
  | nil => exact h
  | cons n ns ih =>
    simp only [mergeFields, List.foldl_cons]
    by_cases hn : hasKey fs n
    · rw [if_pos hn]; exact ih h
    · rw [if_neg hn]
      refine ih ?_
      rw [List.map_append]
      simp only [List.map_cons, List.map_nil]
      rw [List.nodup_append]
      refine ⟨h, List.nodup_singleton n, ?_⟩
      intro k hk hn'
      simp only [List.mem_singleton] at hn'
      subst hn'
      rcases List.mem_map.mp hk with ⟨⟨k', v⟩, hmem, hfst⟩
      exact absurd (hasKey_iff.mpr ⟨v, by rwa [show k' = k from hfst] at hmem⟩) (by simpa using hn)

end FieldLemmas

section NewFieldsLemmas

/-- A pair of `setKey fs k v` is an untouched original pair, or carries
key `k` and value `v`. -/
theorem mem_setKey {fs : List (String × String)} {k v : String} {p : String × String}
    (h : p ∈ setKey fs k v) : p ∈ fs ∨ (p.1 = k ∧ p.2 = v) := by
  unfold setKey at h
  by_cases hk : hasKey fs k
  · rw [if_pos hk] at h
    rcases List.mem_map.mp h with ⟨q, hq, hset⟩
    by_cases hqk : q.1 == k
    · rw [if_pos hqk] at hset
      exact Or.inr ⟨by rw [← hset]; simpa using hqk, by rw [← hset]⟩
    · rw [if_neg hqk] at hset
      exact Or.inl (hset ▸ hq)
  · rw [if_neg hk] at h
    rcases List.mem_append.mp h with h' | h'
    · exact Or.inl h'
    · simp only [List.mem_singleton] at h'
      exact Or.inr ⟨by rw [h'], by rw [h']⟩

/-- Generalised form of the new-fields loop over an arbitrary starting
record. -/
theorem mem_foldl_setKey {ns : List String} {acc : List (String × String)}
    {p : String × String} (h : p ∈ ns.foldl (fun fs n => setKey fs n TODO_VALUE) acc) :
    p ∈ acc ∨ (p.1 ∈ ns ∧ p.2 = TODO_VALUE) := by
  induction ns generalizing acc with
  | nil => exact Or.inl h
  | cons n ns ih =>
    simp only [List.foldl_cons] at h
    rcases ih h with h' | h'
    · rcases mem_setKey h' with h'' | h''
      · exact Or.inl h''
      · exact Or.inr ⟨by rw [h''.1]; exact List.mem_cons_self _ _, h''.2⟩
    · exact Or.inr ⟨List.mem_cons_of_mem _ h'.1, h'.2⟩

/-- Every pair of the new-template field record is a merged-in name
carrying the sentinel. -/
theorem mem_buildNewFields {ns : List String} {p : String × String}
    (h : p ∈ buildNewFields ns) : p.1 ∈ ns ∧ p.2 = TODO_VALUE := by
  rcases mem_foldl_setKey h with h' | h'
  · simp at h'
  · exact h'

/-- `hasKey` is membership in the key list. -/
theorem hasKey_eq_keys_mem {fs : List (String × String)} {k : String} :
    hasKey fs k = true ↔ k ∈ fs.map Prod.fst := by
  rw [hasKey_iff]
  constructor
  · rintro ⟨v, hv⟩
    exact List.mem_map.mpr ⟨(k, v), hv, rfl⟩
  · intro h
    rcases List.mem_map.mp h with ⟨⟨k', v⟩, hmem, hfst⟩
    exact ⟨v, by rwa [show k' = k from hfst] at hmem⟩

/-- `setKey` leaves the key list unchanged on overwrite and appends the
key on insert. -/
theorem keys_setKey {fs : List (String × String)} {k v : String} :
    (setKey fs k v).map Prod.fst =
      if hasKey fs k then fs.map Prod.fst else fs.map Prod.fst ++ [k] := by
  unfold setKey
  by_cases hk : hasKey fs k
  · rw [if_pos hk, if_pos hk, List.map_map]
    refine List.map_congr_left ?_
    intro p _
    by_cases hp : p.1 = k
    · simp [hp]
    · simp [hp]
  · rw [if_neg hk, if_neg hk, List.map_append]
    rfl

/-- The key just set is present afterwards. -/
theorem hasKey_setKey_self {fs : List (String × String)} {k v : String} :
    hasKey (setKey fs k v) k = true := by
  rw [hasKey_eq_keys_mem, keys_setKey]
  by_cases hk : hasKey fs k
  · rw [if_pos hk]
    exact hasKey_eq_keys_mem.mp hk
  · rw [if_neg hk]
    simp

/-- `setKey` never removes a key. -/
theorem hasKey_setKey_of {fs : List (String × String)} {k v n : String}
    (h : hasKey fs n = true) : hasKey (setKey fs k v) n = true := by
  rw [hasKey_eq_keys_mem, keys_setKey]
  by_cases hk : hasKey fs k
  · rw [if_pos hk]
    exact hasKey_eq_keys_mem.mp h
  · rw [if_neg hk]
    exact List.mem_append_left _ (hasKey_eq_keys_mem.mp h)

/-- A name is a key of the new-template record exactly when it was
merged in. -/
theorem hasKey_buildNewFields_iff {ns : List String} {n : String} :
    hasKey (buildNewFields ns) n = true ↔ n ∈ ns := by
  constructor
  · intro h
    rcases hasKey_iff.mp h with ⟨v, hv⟩
    exact (mem_buildNewFields hv).1
  · intro hmem
    suffices h : ∀ (l : List String) (acc : List (String × String)),
        n ∈ l ∨ hasKey acc n = true →
        hasKey (l.foldl (fun fs m => setKey fs m TODO_VALUE) acc) n = true by
      exact h ns [] (Or.inl hmem)
    intro l
    induction l with
    | nil =>
      intro acc h
      rcases h with h | h
      · simp at h
      · exact h
    | cons m l ih =>
      intro acc h
      simp only [List.foldl_cons]
      rcases h with h | h
      · rcases List.mem_cons.mp h with rfl | h'
        · exact ih _ (Or.inr hasKey_setKey_self)
        · exact ih _ (Or.inl h')
      · exact ih _ (Or.inr (hasKey_setKey_of h))

/-- In a record whose values are all `c`, every successful lookup
returns `c`. -/
theorem lookup_eq_of_all_values {fs : List (String × String)} {k v c : String}
    (hall : ∀ p ∈ fs, p.2 = c) (h : fs.lookup k = some v) : v = c := by
  induction fs with
  | nil => simp at h
  | cons p fs ih =>
    obtain ⟨k', w⟩ := p
    by_cases hk : k == k'
    · rw [List.lookup_cons] at h
      simp only [hk] at h
      have := hall (k', w) (List.mem_cons_self _ _)
      simp only at this
      simp only [Option.some.injEq] at h
      rw [← h]
      exact this
    · rw [List.lookup_cons] at h
      simp only [hk] at h
      exact ih (fun q hq => hall q (List.mem_cons_of_mem _ hq)) h

/-- The new-template record maps a name to the sentinel exactly when the
name was merged in. -/
theorem lookup_buildNewFields {ns : List String} {n : String} :
    (buildNewFields ns).lookup n = some TODO_VALUE ↔ n ∈ ns := by
  constructor
  · intro h
    have hk : hasKey (buildNewFields ns) n = true := by
      by_contra hk
      rw [hasKey_eq_false_iff_lookup_eq_none.mp (by simpa using hk)] at h
      exact Option.noConfusion h
    exact hasKey_buildNewFields_iff.mp hk
  · intro hmem
    have hk : hasKey (buildNewFields ns) n = true := hasKey_buildNewFields_iff.mpr hmem
    rcases h : (buildNewFields ns).lookup n with _ | v
    · rw [← hasKey_eq_false_iff_lookup_eq_none] at h
      rw [hk] at h
      exact Bool.noConfusion h
    · rw [lookup_eq_of_all_values (fun p hp => (mem_buildNewFields hp).2) h]

/-- The new-template record has pairwise-distinct keys. -/
theorem keys_nodup_buildNewFields {ns : List String} :
    ((buildNewFields ns).map Prod.fst).Nodup := by
  suffices h : ∀ (l : List String) (acc : List (String × String)),
      (acc.map Prod.fst).Nodup →
      ((l.foldl (fun fs m => setKey fs m TODO_VALUE) acc).map Prod.fst).Nodup by
    exact h ns [] (by simp)
  intro l
  induction l with
  | nil => exact fun acc h => h
  | cons m l ih =>
    intro acc hacc
    simp only [List.foldl_cons]
    refine ih _ ?_
    rw [keys_setKey]
    by_cases hk : hasKey acc m
    · rwa [if_pos hk]
    · rw [if_neg hk]
      rw [List.nodup_append]
      refine ⟨hacc, List.nodup_singleton m, ?_⟩
      intro x hx hm
      simp only [List.mem_singleton] at hm
      subst hm
      exact absurd (hasKey_eq_keys_mem.mpr hx) (by simpa using hk)

/-- With deduplicated names, the new-fields loop is a plain map. -/
theorem buildNewFields_eq_map {ns : List String} (h : ns.Nodup) :
    buildNewFields ns = ns.map (fun n => (n, TODO_VALUE)) := by
  suffices hgen : ∀ (l : List String) (acc : List (String × String)),
      l.Nodup → (∀ n ∈ l, hasKey acc n = false) →
      l.foldl (fun fs m => setKey fs m TODO_VALUE) acc = acc ++ l.map (fun n => (n, TODO_VALUE)) by
    simpa using hgen ns [] h (fun n _ => by simp [hasKey])
  intro l
  induction l with
  | nil => simp
  | cons m l ih =>
    intro acc hnd hfresh
    simp only [List.foldl_cons]
    have hm : hasKey acc m = false := hfresh m (List.mem_cons_self _ _)
    have hstep : setKey acc m TODO_VALUE = acc ++ [(m, TODO_VALUE)] := by
      unfold setKey
      rw [if_neg (by simp [hm])]
    rw [hstep]
    have hnd' := (List.nodup_cons.mp hnd).2
    have hnotin := (List.nodup_cons.mp hnd).1
    rw [ih _ hnd' ?_]
    · simp
    · intro n hn
      have hne : (m == n) = false := by
        simp only [beq_eq_false_iff_ne, ne_eq]
        intro hcontra
        exact hnotin (hcontra ▸ hn)
      rw [hasKey, List.any_append]
      have h1 : hasKey acc n = false := hfresh n (List.mem_cons_of_mem _ hn)
      rw [hasKey] at h1
      simp only [h1, Bool.false_or, List.any_cons, List.any_nil, Bool.or_false]
      simpa using hne

/-- With deduplicated names, every new-template field is a sentinel and
their count is the number of names. -/
theorem sentinelCount_buildNewFields {ns : List String} (h : ns.Nodup) :
    sentinelCount (buildNewFields ns) = ns.length := by
  rw [buildNewFields_eq_map h, sentinelCount]
  rw [List.filter_map]
  simp [Function.comp]

end NewFieldsLemmas

section ExtractLemmas

/-- Membership after one `collect` call: already collected, or a
non-empty trimmed name of the processed field array. -/
theorem mem_collectFrom {acc : List String} {fs : Option (List ApiField)} {s : String} :
    s ∈ collectFrom acc fs ↔
      s ∈ acc ∨ (s ≠ "" ∧ ∃ f ∈ fs.getD [], strTrim f.name = s) := by
  unfold collectFrom
  generalize fs.getD [] = l
  induction l generalizing acc with
  | nil => simp
  | cons f l ih =>
    simp only [List.foldl_cons]
    rw [ih]
    constructor
    · rintro (h | h)
      · by_cases ht : strTrim f.name = ""
        · rw [if_pos ht] at h
          exact Or.inl h
        · rw [if_neg ht] at h
          by_cases hc : acc.contains (strTrim f.name)
          · rw [if_pos hc] at h
            exact Or.inl h
          · rw [if_neg hc] at h
            rcases List.mem_append.mp h with h' | h'
            · exact Or.inl h'
            · simp only [List.mem_singleton] at h'
              subst h'
              exact Or.inr ⟨ht, f, List.mem_cons_self _ _, rfl⟩
      · exact Or.inr ⟨h.1, by
          rcases h.2 with ⟨g, hg, hgs⟩
          exact ⟨g, List.mem_cons_of_mem _ hg, hgs⟩⟩
    · rintro (h | ⟨hne, g, hg, hgs⟩)
      · left
        by_cases ht : strTrim f.name = ""
        · rwa [if_pos ht]
        · rw [if_neg ht]
          by_cases hc : acc.contains (strTrim f.name)
          · rwa [if_pos hc]
          · rw [if_neg hc]
            exact List.mem_append_left _ h
      · rcases List.mem_cons.mp hg with rfl | hg'
        · left
          rw [if_neg (hgs ▸ hne)]
          by_cases hc : acc.contains (strTrim g.name)
          · rw [if_pos hc]
            rw [← hgs]
            exact List.elem_iff.mp hc
          · rw [if_neg hc]
            rw [← hgs]
            simp
        · exact Or.inr ⟨hne, g, hg', hgs⟩

/-- One `collect` call preserves deduplication of the accumulator. -/
theorem nodup_collectFrom {acc : List String} {fs : Option (List ApiField)}
    (h : acc.Nodup) : (collectFrom acc fs).Nodup := by
  unfold collectFrom
  generalize fs.getD [] = l
  induction l generalizing acc with
  | nil => exact h
  | cons f l ih =>
    simp only [List.foldl_cons]
    refine ih ?_
    by_cases ht : strTrim f.name = ""
    · rwa [if_pos ht]
    · rw [if_neg ht]
      by_cases hc : acc.contains (strTrim f.name)
      · rwa [if_pos hc]
      · rw [if_neg hc]
        rw [List.nodup_append]
        refine ⟨h, List.nodup_singleton _, ?_⟩
        intro x hx hmem
        simp only [List.mem_singleton] at hmem
        subst hmem
        exact absurd (List.elem_iff.mpr hx) (by simpa using hc)

/-- Membership after folding `collect` over a list of submitters. -/
theorem mem_subsFold {subs : List ApiSubmitter} {acc : List String} {s : String} :
    s ∈ subs.foldl (fun a sub => collectFrom a sub.fields) acc ↔
      s ∈ acc ∨ (s ≠ "" ∧ ∃ sub ∈ subs, ∃ f ∈ sub.fields.getD [], strTrim f.name = s) := by
  induction subs generalizing acc with
  | nil => simp
  | cons sub subs ih =>
    simp only [List.foldl_cons]
    rw [ih, mem_collectFrom]
    constructor
    · rintro ((h | ⟨hne, f, hf, hfs⟩) | ⟨hne, sub', hsub', f, hf, hfs⟩)
      · exact Or.inl h
      · exact Or.inr ⟨hne, sub, List.mem_cons_self _ _, f, hf, hfs⟩
      · exact Or.inr ⟨hne, sub', List.mem_cons_of_mem _ hsub', f, hf, hfs⟩
    · rintro (h | ⟨hne, sub', hsub', f, hf, hfs⟩)
      · exact Or.inl (Or.inl h)
      · rcases List.mem_cons.mp hsub' with rfl | hsub''
        · exact Or.inl (Or.inr ⟨hne, f, hf, hfs⟩)
        · exact Or.inr ⟨hne, sub', hsub'', f, hf, hfs⟩

/-- Membership after folding `collect` over a list of documents. -/
theorem mem_docsFold {docs : List ApiDocument} {acc : List String} {s : String} :
    s ∈ docs.foldl (fun a doc => collectFrom a doc.fields) acc ↔
      s ∈ acc ∨ (s ≠ "" ∧ ∃ doc ∈ docs, ∃ f ∈ doc.fields.getD [], strTrim f.name = s) := by
  induction docs generalizing acc with
  | nil => simp
  | cons doc docs ih =>
    simp only [List.foldl_cons]
    rw [ih, mem_collectFrom]
    constructor
    · rintro ((h | ⟨hne, f, hf, hfs⟩) | ⟨hne, doc', hdoc', f, hf, hfs⟩)
      · exact Or.inl h
      · exact Or.inr ⟨hne, doc, List.mem_cons_self _ _, f, hf, hfs⟩
      · exact Or.inr ⟨hne, doc', List.mem_cons_of_mem _ hdoc', f, hf, hfs⟩
    · rintro (h | ⟨hne, doc', hdoc', f, hf, hfs⟩)
      · exact Or.inl (Or.inl h)
      · rcases List.mem_cons.mp hdoc' with rfl | hdoc''
        · exact Or.inl (Or.inr ⟨hne, f, hf, hfs⟩)
        · exact Or.inr ⟨hne, doc', hdoc'', f, hf, hfs⟩

/-- The extracted names are exactly the non-empty trimmed raw names of
the three field locations. -/
theorem mem_extractFieldNames {t : DocuSealApiTemplate} {s : String} :
    s ∈ extractFieldNames t ↔ (s ≠ "" ∧ ∃ raw ∈ allRawFieldNames t, strTrim raw = s) := by
  unfold extractFieldNames allRawFieldNames
  rw [mem_docsFold, mem_subsFold, mem_collectFrom]
  simp only [List.mem_append, List.mem_flatMap, List.mem_map, List.not_mem_nil, false_or]
  constructor
  · rintro ((⟨hne, f, hf, hfs⟩ | ⟨hne, sub, hsub, f, hf, hfs⟩) | ⟨hne, doc, hdoc, f, hf, hfs⟩)
    · exact ⟨hne, f.name, Or.inl (Or.inl ⟨f, hf, rfl⟩), hfs⟩
    · exact ⟨hne, f.name, Or.inl (Or.inr ⟨sub, hsub, f, hf, rfl⟩), hfs⟩
    · exact ⟨hne, f.name, Or.inr ⟨doc, hdoc, f, hf, rfl⟩, hfs⟩
  · rintro ⟨hne, raw, (⟨f, hf, rfl⟩ | ⟨sub, hsub, f, hf, rfl⟩) | ⟨doc, hdoc, f, hf, rfl⟩, hfs⟩
    · exact Or.inl (Or.inl ⟨hne, f, hf, hfs⟩)
    · exact Or.inl (Or.inr ⟨hne, sub, hsub, f, hf, hfs⟩)
    · exact Or.inr ⟨hne, doc, hdoc, f, hf, hfs⟩

/-- Folding `collect` over submitters preserves deduplication. -/
theorem nodup_subsFold {subs : List ApiSubmitter} {acc : List String}
    (h : acc.Nodup) : (subs.foldl (fun a sub => collectFrom a sub.fields) acc).Nodup := by
  induction subs generalizing acc with
  | nil => exact h
  | cons sub subs ih =>
    simp only [List.foldl_cons]
    exact ih (nodup_collectFrom h)

/-- Folding `collect` over documents preserves deduplication. -/
theorem nodup_docsFold {docs : List ApiDocument} {acc : List String}
    (h : acc.Nodup) : (docs.foldl (fun a doc => collectFrom a doc.fields) acc).Nodup := by
  induction docs generalizing acc with
  | nil => exact h
  | cons doc docs ih =>
    simp only [List.foldl_cons]
    exact ih (nodup_collectFrom h)

/-- The extracted names are deduplicated. -/
theorem nodup_extractFieldNames {t : DocuSealApiTemplate} :
    (extractFieldNames t).Nodup :=
  nodup_docsFold (nodup_subsFold (nodup_collectFrom List.nodup_nil))

/-- Every extracted name is non-empty. -/
theorem ne_empty_of_mem_extractFieldNames {t : DocuSealApiTemplate} {s : String}
    (h : s ∈ extractFieldNames t) : s ≠ "" :=
  (mem_extractFieldNames.mp h).1

end ExtractLemmas

section MergeLemmas

/-- No match at all means no identifier hit and no name hit. -/
theorem matchOf_eq_none_iff {L : List TemplateConfig} {a : DocuSealApiTemplate} :
    matchOf L a = none ↔
      (∀ e ∈ L, e.docuseal_template_id ≠ a.id) ∧
      (∀ e ∈ L, normName e.name ≠ normName a.name) := by
  unfold matchOf
  constructor
  · intro h
    rcases h1 : findIndex (fun t => t.docuseal_template_id == a.id) L with _ | i
    · rcases h2 : findIndex (fun t => normName t.name == normName a.name) L with _ | i
      · constructor
        · intro e he
          have := findIndex_eq_none_iff.mp h1 e he
          simpa using this
        · intro e he
          have := findIndex_eq_none_iff.mp h2 e he
          simpa using this
      · rw [h1, h2] at h
        exact Option.noConfusion h
    · rw [h1] at h
      exact Option.noConfusion h
  · rintro ⟨h1, h2⟩
    have hid : findIndex (fun t => t.docuseal_template_id == a.id) L = none :=
      findIndex_eq_none_iff.mpr (fun e he => by simpa using h1 e he)
    have hname : findIndex (fun t => normName t.name == normName a.name) L = none :=
      findIndex_eq_none_iff.mpr (fun e he => by simpa using h2 e he)
    rw [hid, hname]

/-- An identifier hit decides the match outright. -/
theorem matchOf_eq_some_id {L : List TemplateConfig} {a : DocuSealApiTemplate} {i : Nat}
    (h : findIndex (fun t => t.docuseal_template_id == a.id) L = some i) :
    matchOf L a = some (i, true) := by
  unfold matchOf
  rw [h]

/-- With no identifier hit, a name hit decides the match. -/
theorem matchOf_eq_some_name {L : List TemplateConfig} {a : DocuSealApiTemplate} {i : Nat}
    (hid : findIndex (fun t => t.docuseal_template_id == a.id) L = none)
    (h : findIndex (fun t => normName t.name == normName a.name) L = some i) :
    matchOf L a = some (i, false) := by
  unfold matchOf
  rw [hid, h]

/-- Inversion: a match by identifier comes from the identifier search. -/
theorem matchOf_some_true_inv {L : List TemplateConfig} {a : DocuSealApiTemplate} {i : Nat}
    (h : matchOf L a = some (i, true)) :
    findIndex (fun t => t.docuseal_template_id == a.id) L = some i := by
  unfold matchOf at h
  rcases h1 : findIndex (fun t => t.docuseal_template_id == a.id) L with _ | j
  · rw [h1] at h
    rcases h2 : findIndex (fun t => normName t.name == normName a.name) L with _ | j
    · rw [h2] at h
      exact Option.noConfusion h
    · rw [h2] at h
      simp at h
  · rw [h1] at h
    simp only [Option.some.injEq, Prod.mk.injEq] at h
    rw [h1, h.1]

/-- Inversion: a match by name comes from the name search after a failed
identifier search. -/
theorem matchOf_some_false_inv {L : List TemplateConfig} {a : DocuSealApiTemplate} {i : Nat}
    (h : matchOf L a = some (i, false)) :
    findIndex (fun t => t.docuseal_template_id == a.id) L = none ∧
    findIndex (fun t => normName t.name == normName a.name) L = some i := by
  unfold matchOf at h
  rcases h1 : findIndex (fun t => t.docuseal_template_id == a.id) L with _ | j
  · rw [h1] at h
    rcases h2 : findIndex (fun t => normName t.name == normName a.name) L with _ | j
    · rw [h2] at h
      exact Option.noConfusion h
    · rw [h2] at h
      simp only [Option.some.injEq, Prod.mk.injEq] at h
      exact ⟨h1, by rw [h2, h.1]⟩
  · rw [h1] at h
    simp at h

/-- A matched index is in bounds. -/
theorem matchOf_some_getElem {L : List TemplateConfig} {a : DocuSealApiTemplate}
    {i : Nat} {b : Bool} (h : matchOf L a = some (i, b)) :
    ∃ e, L[i]? = some e := by
  have hlt : i < L.length := by
    cases b with
    | true => exact findIndex_lt_length (matchOf_some_true_inv h)
    | false => exact findIndex_lt_length (matchOf_some_false_inv h).2
  exact ⟨L[i], List.getElem?_eq_getElem hlt⟩

/-- Unfolded form of the new-template branch. -/
theorem mergeTemplate_new_eq {L : List TemplateConfig} {a : DocuSealApiTemplate}
    {ns : List String} {st : SyncStats} (h : matchOf L a = none) :
    mergeTemplate L a ns st =
      (L ++ [newEntryOf a ns],
        ⟨st.updated, st.added ++ [a.name], st.stale, st.todoCount + ns.length⟩) := by
  simp [mergeTemplate, h]

/-- Unfolded form of the matched branch. -/
theorem mergeTemplate_matched_eq {L : List TemplateConfig} {a : DocuSealApiTemplate}
    {ns : List String} {st : SyncStats} {i : Nat} {b : Bool} {e : TemplateConfig}
    (h : matchOf L a = some (i, b)) (he : L[i]? = some e) :
    mergeTemplate L a ns st =
      (L.set i (updatedEntry e a ns),
        ⟨st.updated ++ [updateLabel a b], st.added, st.stale,
          st.todoCount + sentinelCount (mergeFields e.fields ns)⟩) := by
  simp [mergeTemplate, h, he]

end MergeLemmas

/-- C1: `mergeTemplate` merges into the first local entry whose
identifier equals the remote id; only when there is no identifier match
does it merge into the first entry whose normalised name equals the
remote's; when neither exists the remote template is appended as
brand-new. Identifier match takes priority over any name match. -/
theorem C1_merge_match_priority (L : List TemplateConfig) (a : DocuSealApiTemplate)
    (ns : List String) (st : SyncStats) :
    ((∃ e ∈ L, e.docuseal_template_id = a.id) →
      ∃ i e, L[i]? = some e ∧ e.docuseal_template_id = a.id ∧
        (∀ j b, j < i → L[j]? = some b → b.docuseal_template_id ≠ a.id) ∧
        (mergeTemplate L a ns st).1 = L.set i (updatedEntry e a ns)) ∧
    ((∀ e ∈ L, e.docuseal_template_id ≠ a.id) →
      (∃ e ∈ L, normName e.name = normName a.name) →
      ∃ i e, L[i]? = some e ∧ normName e.name = normName a.name ∧
        (∀ j b, j < i → L[j]? = some b → normName b.name ≠ normName a.name) ∧
        (mergeTemplate L a ns st).1 = L.set i (updatedEntry e a ns)) ∧
    ((∀ e ∈ L, e.docuseal_template_id ≠ a.id) →
      (∀ e ∈ L, normName e.name ≠ normName a.name) →
      (mergeTemplate L a ns st).1 = L ++ [newEntryOf a ns]) := by
  refine ⟨?_, ?_, ?_⟩
  · rintro ⟨e0, he0, hid0⟩
    rcases hfi : findIndex (fun t => t.docuseal_template_id == a.id) L with _ | i
    · exact absurd (by simpa using findIndex_eq_none_iff.mp hfi e0 he0) (by simp [hid0])
    · obtain ⟨e, hget, hpe, hfirst⟩ := findIndex_eq_some_spec hfi
      refine ⟨i, e, hget, by simpa using hpe, ?_, ?_⟩
      · intro j b hj hgb
        have := hfirst j b hj hgb
        simpa using this
      · rw [mergeTemplate_matched_eq (matchOf_eq_some_id hfi) hget]
  · intro hid
    rintro ⟨e0, he0, hn0⟩
    have hidnone : findIndex (fun t => t.docuseal_template_id == a.id) L = none :=
      findIndex_eq_none_iff.mpr (fun e he => by simpa using hid e he)
    rcases hfn : findIndex (fun t => normName t.name == normName a.name) L with _ | i
    · exact absurd (by simpa using findIndex_eq_none_iff.mp hfn e0 he0) (by simp [hn0])
    · obtain ⟨e, hget, hpe, hfirst⟩ := findIndex_eq_some_spec hfn
      refine ⟨i, e, hget, by simpa using hpe, ?_, ?_⟩
      · intro j b hj hgb
        have := hfirst j b hj hgb
        simpa using this
      · rw [mergeTemplate_matched_eq (matchOf_eq_some_name hidnone hfn) hget]
  · intro hid hname
    rw [mergeTemplate_new_eq (matchOf_eq_none_iff.mpr ⟨hid, hname⟩)]

/-- C1 witness: with a local list whose first entry matches the remote
template by name and whose second entry matches it by identifier, the
identifier match at index 1 wins. -/
theorem C1_merge_match_priority_witness :
    (∃ e ∈ [TemplateConfig.mk 9 "b" none [], TemplateConfig.mk 1 "B" none []],
        e.docuseal_template_id = (1 : Int)) ∧
    (∃ i e,
        [TemplateConfig.mk 9 "b" none [], TemplateConfig.mk 1 "B" none []][i]? = some e ∧
        e.docuseal_template_id = (1 : Int) ∧
        (∀ j b, j < i →
          [TemplateConfig.mk 9 "b" none [], TemplateConfig.mk 1 "B" none []][j]? = some b →
          b.docuseal_template_id ≠ (1 : Int)) ∧
        (mergeTemplate [TemplateConfig.mk 9 "b" none [], TemplateConfig.mk 1 "B" none []]
            ⟨1, "b", none, none, none⟩ ["x"] initStats).1 =
          [TemplateConfig.mk 9 "b" none [], TemplateConfig.mk 1 "B" none []].set i
            (updatedEntry (TemplateConfig.mk 1 "B" none []) ⟨1, "b", none, none, none⟩ ["x"])) := by
  constructor
  · decide
  · have h := (C1_merge_match_priority
      [TemplateConfig.mk 9 "b" none [], TemplateConfig.mk 1 "B" none []]
      ⟨1, "b", none, none, none⟩ ["x"] initStats).1 (by decide)
    obtain ⟨i, e, hget, hid, hfirst, hres⟩ := h
    have hi : i = 1 := by
      by_contra hne
      rcases i with _ | _ | i
      · exact absurd hid (by simp at hget; rw [← hget]; decide)
      · exact hne rfl
      · simp at hget
    subst hi
    have he : e = TemplateConfig.mk 1 "B" none [] := by
      have := hget
      simp only [List.getElem?_cons_succ, List.getElem?_cons_zero, Option.some.injEq] at this
      exact this.symm
    subst he
    exact ⟨1, TemplateConfig.mk 1 "B" none [], hget, hid, hfirst, hres⟩

/-- C2: whenever `mergeTemplate` matches (by identifier or by name), the
merged entry carries the remote identifier and name, keeps its
description, keeps every pre-existing field with its value, and gains
the sentinel exactly for extracted names that were absent; no key is
removed. -/
theorem C2_merge_preserves_fields (L : List TemplateConfig) (a : DocuSealApiTemplate)
    (ns : List String) (st : SyncStats)
    (h : (∃ e ∈ L, e.docuseal_template_id = a.id) ∨
         (∃ e ∈ L, normName e.name = normName a.name)) :
    ∃ i e, L[i]? = some e ∧
      (mergeTemplate L a ns st).1 = L.set i (updatedEntry e a ns) ∧
      (updatedEntry e a ns).docuseal_template_id = a.id ∧
      (updatedEntry e a ns).name = a.name ∧
      (updatedEntry e a ns).description = e.description ∧
      (∀ k v, e.fields.lookup k = some v → (updatedEntry e a ns).fields.lookup k = some v) ∧
      (∀ n ∈ ns, e.fields.lookup n = none →
        (updatedEntry e a ns).fields.lookup n = some TODO_VALUE) ∧
      (∀ k, hasKey e.fields k = true → hasKey (updatedEntry e a ns).fields k = true) := by
  have hmatch : ∃ i b, matchOf L a = some (i, b) := by
    rcases hfi : findIndex (fun t => t.docuseal_template_id == a.id) L with _ | i
    · rcases h with ⟨e0, he0, hid0⟩ | ⟨e0, he0, hn0⟩
      · exact absurd (by simpa using findIndex_eq_none_iff.mp hfi e0 he0) (by simp [hid0])
      · rcases hfn : findIndex (fun t => normName t.name == normName a.name) L with _ | i
        · exact absurd (by simpa using findIndex_eq_none_iff.mp hfn e0 he0) (by simp [hn0])
        · exact ⟨i, false, matchOf_eq_some_name hfi hfn⟩
    · exact ⟨i, true, matchOf_eq_some_id hfi⟩
  obtain ⟨i, b, hm⟩ := hmatch
  obtain ⟨e, hget⟩ := matchOf_some_getElem hm
  refine ⟨i, e, hget, ?_, rfl, rfl, rfl, ?_, ?_, ?_⟩
  · rw [mergeTemplate_matched_eq hm hget]
  · intro k v hk
    exact lookup_mergeFields_of_some hk
  · intro n hn hnone
    exact lookup_mergeFields_of_none hn hnone
  · intro k hk
    exact hasKey_mergeFields_of_hasKey hk

/-- C2 witness: merging remote template 1 named B with fields X, Y into a
local entry holding an expression for X keeps that expression, adds the
sentinel for Y, and keeps the description. -/
theorem C2_merge_preserves_fields_witness :
    ((∃ e ∈ [TemplateConfig.mk 1 "A" (some "d") [("X", "expr")]],
        e.docuseal_template_id = (1 : Int)) ∨
      (∃ e ∈ [TemplateConfig.mk 1 "A" (some "d") [("X", "expr")]],
        normName e.name = normName "B")) ∧
    (∃ i e, [TemplateConfig.mk 1 "A" (some "d") [("X", "expr")]][i]? = some e ∧
      (mergeTemplate [TemplateConfig.mk 1 "A" (some "d") [("X", "expr")]]
          ⟨1, "B", some [⟨"X"⟩, ⟨"Y"⟩], none, none⟩ ["X", "Y"] initStats).1 =
        [TemplateConfig.mk 1 "A" (some "d") [("X", "expr")]].set i
          (updatedEntry e ⟨1, "B", some [⟨"X"⟩, ⟨"Y"⟩], none, none⟩ ["X", "Y"]) ∧
      (updatedEntry e ⟨1, "B", some [⟨"X"⟩, ⟨"Y"⟩], none, none⟩ ["X", "Y"]).docuseal_template_id = (1 : Int) ∧
      (updatedEntry e ⟨1, "B", some [⟨"X"⟩, ⟨"Y"⟩], none, none⟩ ["X", "Y"]).name = "B" ∧
      (updatedEntry e ⟨1, "B", some [⟨"X"⟩, ⟨"Y"⟩], none, none⟩ ["X", "Y"]).description = e.description ∧
      (∀ k v, e.fields.lookup k = some v →
        (updatedEntry e ⟨1, "B", some [⟨"X"⟩, ⟨"Y"⟩], none, none⟩ ["X", "Y"]).fields.lookup k = some v) ∧
      (∀ n ∈ ["X", "Y"], e.fields.lookup n = none →
        (updatedEntry e ⟨1, "B", some [⟨"X"⟩, ⟨"Y"⟩], none, none⟩ ["X", "Y"]).fields.lookup n = some TODO_VALUE) ∧
      (∀ k, hasKey e.fields k = true →
        hasKey (updatedEntry e ⟨1, "B", some [⟨"X"⟩, ⟨"Y"⟩], none, none⟩ ["X", "Y"]).fields k = true)) :=
  ⟨Or.inl (by decide),
    C2_merge_preserves_fields [TemplateConfig.mk 1 "A" (some "d") [("X", "expr")]]
      ⟨1, "B", some [⟨"X"⟩, ⟨"Y"⟩], none, none⟩ ["X", "Y"] initStats (Or.inl (by decide))⟩

/-- C7: with no identifier match and no name match, `mergeTemplate`
appends exactly one new entry at the end carrying the remote id and
name, a placeholder description, and a field record sending every
extracted name to the sentinel; the remote name is recorded in
`stats.added` and `stats.todoCount` grows by the number of extracted
names, while `stats.updated` and `stats.stale` are untouched. -/
theorem C7_merge_new_template (L : List TemplateConfig) (a : DocuSealApiTemplate)
    (ns : List String) (st : SyncStats)
    (hid : ∀ e ∈ L, e.docuseal_template_id ≠ a.id)
    (hname : ∀ e ∈ L, normName e.name ≠ normName a.name) :
    (mergeTemplate L a ns st).1 = L ++ [newEntryOf a ns] ∧
    (newEntryOf a ns).docuseal_template_id = a.id ∧
    (newEntryOf a ns).name = a.name ∧
    (newEntryOf a ns).description = some "TODO: add description" ∧
    (∀ n, (newEntryOf a ns).fields.lookup n = some TODO_VALUE ↔ n ∈ ns) ∧
    (∀ p ∈ (newEntryOf a ns).fields, p.1 ∈ ns ∧ p.2 = TODO_VALUE) ∧
    (mergeTemplate L a ns st).2 =
      ⟨st.updated, st.added ++ [a.name], st.stale, st.todoCount + ns.length⟩ := by
  have hm : matchOf L a = none := matchOf_eq_none_iff.mpr ⟨hid, hname⟩
  have heq := @mergeTemplate_new_eq L a ns st hm
  refine ⟨by rw [heq], rfl, rfl, rfl, ?_, ?_, by rw [heq]⟩
  · intro n
    exact lookup_buildNewFields
  · intro p hp
    exact mem_buildNewFields hp

/-- C7 witness: an empty local list and remote template 7 named New Form
with fields A and B produce one appended entry with both fields set to
the sentinel, New Form in `added`, and a todo count of 2. -/
theorem C7_merge_new_template_witness :
    (∀ e ∈ ([] : List TemplateConfig), e.docuseal_template_id ≠ (7 : Int)) ∧
    (∀ e ∈ ([] : List TemplateConfig), normName e.name ≠ normName "New Form") ∧
    ((mergeTemplate [] ⟨7, "New Form", some [⟨"A"⟩, ⟨"B"⟩], none, none⟩ ["A", "B"] initStats).1 =
        [] ++ [newEntryOf ⟨7, "New Form", some [⟨"A"⟩, ⟨"B"⟩], none, none⟩ ["A", "B"]] ∧
      (newEntryOf ⟨7, "New Form", some [⟨"A"⟩, ⟨"B"⟩], none, none⟩ ["A", "B"]).docuseal_template_id = (7 : Int) ∧
      (newEntryOf ⟨7, "New Form", some [⟨"A"⟩, ⟨"B"⟩], none, none⟩ ["A", "B"]).name = "New Form" ∧
      (newEntryOf ⟨7, "New Form", some [⟨"A"⟩, ⟨"B"⟩], none, none⟩ ["A", "B"]).description = some "TODO: add description" ∧
      (∀ n, (newEntryOf ⟨7, "New Form", some [⟨"A"⟩, ⟨"B"⟩], none, none⟩ ["A", "B"]).fields.lookup n = some TODO_VALUE ↔ n ∈ ["A", "B"]) ∧
      (∀ p ∈ (newEntryOf ⟨7, "New Form", some [⟨"A"⟩, ⟨"B"⟩], none, none⟩ ["A", "B"]).fields, p.1 ∈ ["A", "B"] ∧ p.2 = TODO_VALUE) ∧
      (mergeTemplate [] ⟨7, "New Form", some [⟨"A"⟩, ⟨"B"⟩], none, none⟩ ["A", "B"] initStats).2 =
        ⟨initStats.updated, initStats.added ++ ["New Form"], initStats.stale, initStats.todoCount + 2⟩) :=
  ⟨by simp, by simp,
    C7_merge_new_template [] ⟨7, "New Form", some [⟨"A"⟩, ⟨"B"⟩], none, none⟩ ["A", "B"] initStats
      (by simp) (by simp)⟩

/-- C8: `mergeTemplate` returns its result without touching the input
list (immutability is intrinsic to the embedding): the result is either
the input with one entry appended, or the input with exactly the matched
index replaced in place — same length, every other position unchanged,
the entry not moved to the end. -/
theorem C8_merge_frame (L : List TemplateConfig) (a : DocuSealApiTemplate)
    (ns : List String) (st : SyncStats) :
    ((mergeTemplate L a ns st).1 = L ++ [newEntryOf a ns]) ∨
    (∃ i e, i < L.length ∧ L[i]? = some e ∧
      (mergeTemplate L a ns st).1 = L.set i (updatedEntry e a ns) ∧
      (mergeTemplate L a ns st).1.length = L.length ∧
      ∀ j, j ≠ i → (mergeTemplate L a ns st).1[j]? = L[j]?) := by
  rcases hm : matchOf L a with _ | ⟨i, b⟩
  · left
    rw [mergeTemplate_new_eq hm]
  · right
    obtain ⟨e, hget⟩ := matchOf_some_getElem hm
    have heq := @mergeTemplate_matched_eq L a ns st i b e hm hget
    refine ⟨i, e, (List.getElem?_eq_some.mp hget).1, hget, by rw [heq], ?_, ?_⟩
    · rw [heq]
      exact List.length_set L i _
    · intro j hj
      rw [heq]
      exact List.getElem?_set_ne (Ne.symm hj)

/-- C8 witness: instantiation at a list with an identifier match at
index 0 and a spectator entry at index 1. -/
theorem C8_merge_frame_witness :
    ((mergeTemplate [TemplateConfig.mk 1 "A" none [], TemplateConfig.mk 2 "B" none []]
        ⟨1, "A2", none, none, none⟩ [] initStats).1 =
      [TemplateConfig.mk 1 "A" none [], TemplateConfig.mk 2 "B" none []] ++
        [newEntryOf ⟨1, "A2", none, none, none⟩ []]) ∨
    (∃ i e, i < 2 ∧
      [TemplateConfig.mk 1 "A" none [], TemplateConfig.mk 2 "B" none []][i]? = some e ∧
      (mergeTemplate [TemplateConfig.mk 1 "A" none [], TemplateConfig.mk 2 "B" none []]
          ⟨1, "A2", none, none, none⟩ [] initStats).1 =
        [TemplateConfig.mk 1 "A" none [], TemplateConfig.mk 2 "B" none []].set i
          (updatedEntry e ⟨1, "A2", none, none, none⟩ []) ∧
      (mergeTemplate [TemplateConfig.mk 1 "A" none [], TemplateConfig.mk 2 "B" none []]
          ⟨1, "A2", none, none, none⟩ [] initStats).1.length = 2 ∧
      ∀ j, j ≠ i →
        (mergeTemplate [TemplateConfig.mk 1 "A" none [], TemplateConfig.mk 2 "B" none []]
          ⟨1, "A2", none, none, none⟩ [] initStats).1[j]? =
        [TemplateConfig.mk 1 "A" none [], TemplateConfig.mk 2 "B" none []][j]?) :=
  C8_merge_frame [TemplateConfig.mk 1 "A" none [], TemplateConfig.mk 2 "B" none []]
    ⟨1, "A2", none, none, none⟩ [] initStats

/-- C10: a matched merge appends exactly one label to `stats.updated` —
the bare remote name on an identifier match, the remote name annotated
with the identifier-correction note on a name match — and never records
a matched template in `stats.added`. -/
theorem C10_update_labels (L : List TemplateConfig) (a : DocuSealApiTemplate)
    (ns : List String) (st : SyncStats) :
    ((∃ e ∈ L, e.docuseal_template_id = a.id) →
      (mergeTemplate L a ns st).2.updated = st.updated ++ [a.name] ∧
      (mergeTemplate L a ns st).2.added = st.added) ∧
    ((∀ e ∈ L, e.docuseal_template_id ≠ a.id) →
      (∃ e ∈ L, normName e.name = normName a.name) →
      (mergeTemplate L a ns st).2.updated =
        st.updated ++ [a.name ++ "  (ID corrected via name-match)"] ∧
      (mergeTemplate L a ns st).2.added = st.added) := by
  constructor
  · rintro ⟨e0, he0, hid0⟩
    rcases hfi : findIndex (fun t => t.docuseal_template_id == a.id) L with _ | i
    · exact absurd (by simpa using findIndex_eq_none_iff.mp hfi e0 he0) (by simp [hid0])
    · have hm := matchOf_eq_some_id hfi
      obtain ⟨e, hget⟩ := matchOf_some_getElem hm
      rw [mergeTemplate_matched_eq hm hget]
      exact ⟨rfl, rfl⟩
  · intro hid
    rintro ⟨e0, he0, hn0⟩
    have hidnone : findIndex (fun t => t.docuseal_template_id == a.id) L = none :=
      findIndex_eq_none_iff.mpr (fun e he => by simpa using hid e he)
    rcases hfn : findIndex (fun t => normName t.name == normName a.name) L with _ | i
    · exact absurd (by simpa using findIndex_eq_none_iff.mp hfn e0 he0) (by simp [hn0])
    · have hm := matchOf_eq_some_name hidnone hfn
      obtain ⟨e, hget⟩ := matchOf_some_getElem hm
      rw [mergeTemplate_matched_eq hm hget]
      exact ⟨rfl, rfl⟩

/-- C10 witness: an identifier match yields the bare name label, a name
match the annotated label; added is untouched in both runs. -/
theorem C10_update_labels_witness :
    ((∃ e ∈ [TemplateConfig.mk 1 "A" none []], e.docuseal_template_id = (1 : Int)) ∧
      (mergeTemplate [TemplateConfig.mk 1 "A" none []] ⟨1, "B", none, none, none⟩ [] initStats).2.updated =
        initStats.updated ++ ["B"] ∧
      (mergeTemplate [TemplateConfig.mk 1 "A" none []] ⟨1, "B", none, none, none⟩ [] initStats).2.added =
        initStats.added) ∧
    ((∀ e ∈ [TemplateConfig.mk 99 "Lease Agreement" none []], e.docuseal_template_id ≠ (5 : Int)) ∧
      (∃ e ∈ [TemplateConfig.mk 99 "Lease Agreement" none []],
        normName e.name = normName "Lease Agreement") ∧
      (mergeTemplate [TemplateConfig.mk 99 "Lease Agreement" none []]
          ⟨5, "Lease Agreement", none, none, none⟩ ["Email"] initStats).2.updated =
        initStats.updated ++ ["Lease Agreement" ++ "  (ID corrected via name-match)"] ∧
      (mergeTemplate [TemplateConfig.mk 99 "Lease Agreement" none []]
          ⟨5, "Lease Agreement", none, none, none⟩ ["Email"] initStats).2.added =
        initStats.added) := by
  constructor
  · refine ⟨by decide, ?_⟩
    exact (C10_update_labels [TemplateConfig.mk 1 "A" none []]
      ⟨1, "B", none, none, none⟩ [] initStats).1 (by decide)
  · refine ⟨by decide, by decide, ?_⟩
    exact (C10_update_labels [TemplateConfig.mk 99 "Lease Agreement" none []]
      ⟨5, "Lease Agreement", none, none, none⟩ ["Email"] initStats).2 (by decide) (by decide)

section StaleLemmas

/-- `mergeTemplate` never touches `stats.stale`. -/
theorem mergeTemplate_stale {L : List TemplateConfig} {a : DocuSealApiTemplate}
    {ns : List String} {st : SyncStats} :
    (mergeTemplate L a ns st).2.stale = st.stale := by
  rcases hm : matchOf L a with _ | ⟨i, b⟩
  · rw [mergeTemplate_new_eq hm]
  · obtain ⟨e, hget⟩ := matchOf_some_getElem hm
    rw [mergeTemplate_matched_eq hm hget]

/-- The merge fold never touches `stats.stale`. -/
theorem runMerge_stale {ts : List DocuSealApiTemplate} {L : List TemplateConfig}
    {st : SyncStats} : (runMerge L ts st).2.stale = st.stale := by
  induction ts generalizing L st with
  | nil => rfl
  | cons t ts ih =>
    simp only [runMerge]
    rw [ih, mergeTemplate_stale]

/-- `all` over a mapped list (heterogeneous version). -/
theorem all_map_general {α β : Type _} {f : α → β} {l : List α} {p : β → Bool} :
    (l.map f).all p = l.all (fun x => p (f x)) := by
  induction l with
  | nil => rfl
  | cons x l ih => simp [ih]

/-- Absence from a list, phrased as the universal Boolean test the stale
detector uses. -/
theorem not_contains_eq_all {α : Type _} [BEq α] [LawfulBEq α] {l : List α} {x : α} :
    (!l.contains x) = l.all (fun y => !(y == x)) := by
  rcases h : l.contains x with _ | _
  · have hmem : x ∉ l := by
      intro hm
      have : l.contains x = true := List.elem_iff.mpr hm
      rw [h] at this
      exact Bool.noConfusion this
    have hall : l.all (fun y => !(y == x)) = true := by
      rw [List.all_eq_true]
      intro y hy
      simp only [Bool.not_eq_true']
      rw [beq_eq_false_iff_ne]
      intro hxy
      exact hmem (hxy ▸ hy)
    rw [hall]
    rfl
  · have hmem : x ∈ l := List.elem_iff.mp h
    have hall : l.all (fun y => !(y == x)) = false := by
      rw [List.all_eq_false]
      exact ⟨x, hmem, by simp⟩
    rw [hall]
    rfl

/-- The inner condition of `detectStaleTemplates` equals `staleFlag`. -/
theorem detect_condition_eq {ts : List DocuSealApiTemplate} {e : TemplateConfig} :
    (!(ts.map (fun t => t.id)).contains e.docuseal_template_id &&
      !(ts.map (fun t => normName t.name)).contains (normName e.name)) = staleFlag ts e := by
  unfold staleFlag
  rw [not_contains_eq_all, not_contains_eq_all, all_map_general, all_map_general]

/-- One step of the stale-detection fold. -/
theorem detectStaleTemplates_cons {e : TemplateConfig} {L : List TemplateConfig}
    {ts : List DocuSealApiTemplate} {st : SyncStats} :
    detectStaleTemplates (e :: L) ts st =
      detectStaleTemplates L ts
        (if staleFlag ts e then ⟨st.updated, st.added, st.stale ++ [e.name], st.todoCount⟩
         else st) := by
  unfold detectStaleTemplates
  simp only [List.foldl_cons]
  congr 1
  show (if (!(ts.map (fun t => t.id)).contains e.docuseal_template_id &&
            !(ts.map (fun t => normName t.name)).contains (normName e.name)) = true
        then { st with stale := st.stale ++ [e.name] } else st) = _
  rw [detect_condition_eq]

/-- Full characterisation of `detectStaleTemplates`: it only appends the
names of stale-flagged entries to `stats.stale`. -/
theorem detectStaleTemplates_eq {L : List TemplateConfig}
    {ts : List DocuSealApiTemplate} {st : SyncStats} :
    detectStaleTemplates L ts st =
      ⟨st.updated, st.added,
        st.stale ++ (L.filter (staleFlag ts)).map (fun e => e.name), st.todoCount⟩ := by
  induction L generalizing st with
  | nil => simp [detectStaleTemplates]
  | cons e L ih =>
    rw [detectStaleTemplates_cons]
    rcases hflag : staleFlag ts e with _ | _
    · rw [if_neg (by simp [hflag])]
      rw [ih]
      rw [List.filter_cons, if_neg (by simp [hflag])]
    · rw [if_pos (by simp [hflag])]
      rw [ih]
      rw [List.filter_cons, if_pos (by simp [hflag])]
      simp

/-- `staleFlag` holds exactly when no remote identifier and no remote
normalised name matches the entry. -/
theorem staleFlag_iff {ts : List DocuSealApiTemplate} {e : TemplateConfig} :
    staleFlag ts e = true ↔
      (∀ t ∈ ts, t.id ≠ e.docuseal_template_id) ∧
      (∀ t ∈ ts, normName t.name ≠ normName e.name) := by
  unfold staleFlag
  simp

end StaleLemmas

/-- C5: after a full pass, `stats.stale` lists exactly the names of the
pre-merge local entries whose identifier appears in no remote template
and whose normalised name appears in no remote template, in list order;
stale detection runs on the pre-merge snapshot, removes nothing from the
template list, and leaves all other stats untouched. -/
theorem C5_stale_detection (L : List TemplateConfig) (ts : List DocuSealApiTemplate) :
    (syncMain L ts).2.stale =
      (L.filter (staleFlag ts)).map (fun e => e.name) ∧
    (∀ e, staleFlag ts e = true ↔
      (∀ t ∈ ts, t.id ≠ e.docuseal_template_id) ∧
      (∀ t ∈ ts, normName t.name ≠ normName e.name)) ∧
    (syncMain L ts).1 = (runMerge L ts initStats).1 ∧
    (syncMain L ts).2.updated = (runMerge L ts initStats).2.updated ∧
    (syncMain L ts).2.added = (runMerge L ts initStats).2.added ∧
    (syncMain L ts).2.todoCount = (runMerge L ts initStats).2.todoCount := by
  have h2 : (syncMain L ts).2 = detectStaleTemplates L ts (runMerge L ts initStats).2 := rfl
  have h1 : (syncMain L ts).1 = (runMerge L ts initStats).1 := rfl
  have hrs : (runMerge L ts initStats).2.stale = [] := runMerge_stale
  refine ⟨?_, fun e => staleFlag_iff, h1, ?_, ?_, ?_⟩
  · rw [h2, detectStaleTemplates_eq]
    show (runMerge L ts initStats).2.stale ++ _ = _
    rw [hrs]
    simp
  · rw [h2, detectStaleTemplates_eq]
  · rw [h2, detectStaleTemplates_eq]
  · rw [h2, detectStaleTemplates_eq]

/-- C6: `extractFieldNames` returns a deduplicated list containing a
string exactly when it is the non-empty trim of some raw name found in
the template's top-level fields, submitter fields, or document fields. -/
theorem C6_extract_field_names (t : DocuSealApiTemplate) :
    (extractFieldNames t).Nodup ∧
    ∀ s, s ∈ extractFieldNames t ↔
      (s ≠ "" ∧ ∃ raw ∈ allRawFieldNames t, strTrim raw = s) :=
  ⟨nodup_extractFieldNames, fun _ => mem_extractFieldNames⟩

/-- C4: the code violates the claim — after a full pass, `todoCount`
counts only sentinels of entries that were merged or added this run, so
a sentinel field of a local entry matched by no remote template is not
counted: on local `[1, Old, x ↦ sentinel]` and remote `[2, New]` the
final list carries one sentinel field but `todoCount` is `0`. -/
theorem C4_todo_count_divergence :
    (runMerge [⟨1, "Old", none, [("x", TODO_VALUE)]⟩]
        [⟨2, "New", none, none, none⟩] initStats).2.todoCount = 0 ∧
    totalSentinels (runMerge [⟨1, "Old", none, [("x", TODO_VALUE)]⟩]
        [⟨2, "New", none, none, none⟩] initStats).1 = 1 := by
  decide

/-- One merge step preserve the local invariants when the remote
template is schema-valid and field names come from the extractor. -/
theorem mergeTemplate_preserves_invariant {L : List TemplateConfig}
    {a : DocuSealApiTemplate} {st : SyncStats}
    (ha : SchemaValidRemote a) (hL : ∀ e ∈ L, LocalInvariant e) :
    ∀ e ∈ (mergeTemplate L a (extractFieldNames a) st).1, LocalInvariant e := by
  have htodo : TODO_VALUE ≠ "" := by decide
  rcases hm : matchOf L a with _ | ⟨i, b⟩
  · rw [mergeTemplate_new_eq hm]
    intro e he
    rcases List.mem_append.mp he with h' | h'
    · exact hL e h'
    · simp only [List.mem_singleton] at h'
      subst h'
      refine ⟨ha.1, ha.2, keys_nodup_buildNewFields, ?_⟩
      intro p hp
      obtain ⟨hmem, hval⟩ := mem_buildNewFields hp
      exact ⟨ne_empty_of_mem_extractFieldNames hmem, hval ▸ htodo⟩
  · obtain ⟨e0, hget⟩ := matchOf_some_getElem hm
    rw [mergeTemplate_matched_eq hm hget]
    intro e he
    rcases List.mem_or_eq_of_mem_set he with h' | h'
    · exact hL e h'
    · subst h'
      have he0 : e0 ∈ L := by
        obtain ⟨hlt, heq⟩ := List.getElem?_eq_some.mp hget
        exact heq ▸ List.getElem_mem hlt
      obtain ⟨-, -, hnd, hpairs⟩ := hL e0 he0
      refine ⟨ha.1, ha.2, keys_nodup_mergeFields hnd, ?_⟩
      intro p hp
      rcases mem_mergeFields hp with h'' | h''
      · exact hpairs p h''
      · exact ⟨ne_empty_of_mem_extractFieldNames h''.1, h''.2 ▸ htodo⟩

/-- C9: if every local entry satisfies the LocalTemplate invariants and
every remote template is schema-valid, every entry of the fully merged
list satisfies the invariants as well. -/
theorem C9_invariants_preserved (L : List TemplateConfig)
    (ts : List DocuSealApiTemplate) (st : SyncStats)
    (hL : ∀ e ∈ L, LocalInvariant e) (hts : ∀ t ∈ ts, SchemaValidRemote t) :
    ∀ e ∈ (runMerge L ts st).1, LocalInvariant e := by
  induction ts generalizing L st with
  | nil => exact hL
  | cons t ts ih =>
    simp only [runMerge]
    exact ih _ _
      (mergeTemplate_preserves_invariant (hts t (List.mem_cons_self _ _)) hL)
      (fun u hu => hts u (List.mem_cons_of_mem _ hu))

/-- C9 witness: instantiation at a one-entry local list and a remote
catalog containing a matching and a new template. -/
theorem C9_invariants_preserved_witness :
    (∀ e ∈ [TemplateConfig.mk 1 "A" none [("x", "expr")]], LocalInvariant e) ∧
    (∀ t ∈ [DocuSealApiTemplate.mk 1 "B" (some [⟨"y"⟩]) none none,
            DocuSealApiTemplate.mk 2 "C" none none none], SchemaValidRemote t) ∧
    ∀ e ∈ (runMerge [TemplateConfig.mk 1 "A" none [("x", "expr")]]
        [DocuSealApiTemplate.mk 1 "B" (some [⟨"y"⟩]) none none,
         DocuSealApiTemplate.mk 2 "C" none none none] initStats).1, LocalInvariant e :=
  ⟨by decide, by decide,
    C9_invariants_preserved [TemplateConfig.mk 1 "A" none [("x", "expr")]]
      [DocuSealApiTemplate.mk 1 "B" (some [⟨"y"⟩]) none none,
       DocuSealApiTemplate.mk 2 "C" none none none] initStats (by decide) (by decide)⟩

section IdempotencyMachinery

/-- Owner entries satisfy the identifier predicate and nothing before
them does. -/
theorem owner_spec {L : List TemplateConfig} {u : DocuSealApiTemplate} {i : Nat}
    (h : ownerIdx L u = some i) :
    ∃ e, L[i]? = some e ∧ e.docuseal_template_id = u.id ∧
      ∀ j b, j < i → L[j]? = some b → b.docuseal_template_id ≠ u.id := by
  obtain ⟨e, hget, hpe, hfirst⟩ := findIndex_eq_some_spec h
  refine ⟨e, hget, by simpa using hpe, ?_⟩
  intro j b hj hb
  have := hfirst j b hj hb
  simpa using this

/-- `ownedCount` evaluated at a known owner. -/
theorem ownedCount_eq {L : List TemplateConfig} {u : DocuSealApiTemplate}
    {i : Nat} {e : TemplateConfig} (hoi : ownerIdx L u = some i)
    (hget : L[i]? = some e) : ownedCount L u = sentinelCount e.fields := by
  simp only [ownedCount, hoi, hget]

/-- Prefix positions of an append are read from the left list. -/
theorem getElem?_append_left_of_lt {α : Type _} {L M : List α} {j : Nat}
    (h : j < L.length) : (L ++ M)[j]? = L[j]? := by
  rw [List.getElem?_append]
  rw [if_pos h]

/-- In-bounds `set` makes the value readable at its index. -/
theorem getElem?_set_self_of_lt {α : Type _} {l : List α} {i : Nat} {a : α}
    (h : i < l.length) : (l.set i a)[i]? = some a := by
  rw [List.getElem?_set]
  simp [h]

/-- An indexed read witnesses membership. -/
theorem mem_of_getElem? {α : Type _} {l : List α} {i : Nat} {a : α}
    (h : l[i]? = some a) : a ∈ l := by
  obtain ⟨hlt, heq⟩ := List.getElem?_eq_some.mp h
  exact heq ▸ List.getElem_mem hlt

/-- Appending an entry does not disturb an established owner. -/
theorem Owns_append_preserve {L : List TemplateConfig} {u : DocuSealApiTemplate}
    (ho : Owns L u) (x : TemplateConfig) :
    Owns (L ++ [x]) u ∧ ownedCount (L ++ [x]) u = ownedCount L u := by
  obtain ⟨j, e, hoj, hget, hname, hfields⟩ := ho
  obtain ⟨e', hget', hid, hfirst⟩ := owner_spec hoj
  have hee : e = e' := by
    rw [hget] at hget'
    exact Option.some.inj hget'
  subst hee
  have hjlt : j < L.length := (List.getElem?_eq_some.mp hget).1
  have hgetap : (L ++ [x])[j]? = some e := by rw [getElem?_append_left_of_lt hjlt, hget]
  have hoidx : ownerIdx (L ++ [x]) u = some j := by
    refine findIndex_eq_some_of hgetap (by simp [hid]) ?_
    intro k b hk hb
    rw [getElem?_append_left_of_lt (Nat.lt_trans hk hjlt)] at hb
    have := hfirst k b hk hb
    simpa using this
  exact ⟨⟨j, e, hoidx, hgetap, hname, hfields⟩,
    by rw [ownedCount_eq hoidx hgetap, ownedCount_eq hoj hget]⟩

/-- Overwriting a position other than the owner, with an entry that does
not carry the template's identifier, does not disturb the owner. -/
theorem Owns_set_preserve {L : List TemplateConfig} {u : DocuSealApiTemplate}
    {i : Nat} {x : TemplateConfig} (ho : Owns L u)
    (hxid : x.docuseal_template_id ≠ u.id)
    (hne : ownerIdx L u ≠ some i) :
    Owns (L.set i x) u ∧ ownedCount (L.set i x) u = ownedCount L u := by
  obtain ⟨j, e, hoj, hget, hname, hfields⟩ := ho
  obtain ⟨e', hget', hid, hfirst⟩ := owner_spec hoj
  have hee : e = e' := by
    rw [hget] at hget'
    exact Option.some.inj hget'
  subst hee
  have hij : i ≠ j := fun h => hne (h ▸ hoj)
  have hgetset : (L.set i x)[j]? = some e := by
    rw [List.getElem?_set_ne hij, hget]
  have hoidx : ownerIdx (L.set i x) u = some j := by
    refine findIndex_eq_some_of hgetset (by simp [hid]) ?_
    intro k b hk hb
    by_cases hki : k = i
    · subst hki
      rw [List.getElem?_set] at hb
      rw [if_pos rfl] at hb
      by_cases hkl : k < L.length
      · rw [if_pos hkl] at hb
        obtain rfl : b = x := (Option.some.inj hb).symm
        simpa using hxid
      · rw [if_neg hkl] at hb
        exact Option.noConfusion hb
    · rw [List.getElem?_set_ne (fun h => hki h.symm)] at hb
      have := hfirst k b hk hb
      simpa using this
  exact ⟨⟨j, e, hoidx, hgetset, hname, hfields⟩,
    by rw [ownedCount_eq hoidx hgetset, ownedCount_eq hoj hget]⟩

end IdempotencyMachinery

/-- One merge step settles the processed template and disturbs no
template with a different identifier and different normalised name,
while adding exactly the settled entry's sentinel count to the todo
counter. -/
theorem merge_step_inv {L : List TemplateConfig} {u : DocuSealApiTemplate}
    {st : SyncStats} {done : List DocuSealApiTemplate}
    (hdist : ∀ t ∈ done, t.id ≠ u.id ∧ normName t.name ≠ normName u.name)
    (howns : ∀ t ∈ done, Owns L t) :
    (∀ t ∈ done, Owns (mergeTemplate L u (extractFieldNames u) st).1 t ∧
      ownedCount (mergeTemplate L u (extractFieldNames u) st).1 t = ownedCount L t) ∧
    Owns (mergeTemplate L u (extractFieldNames u) st).1 u ∧
    (mergeTemplate L u (extractFieldNames u) st).2.todoCount =
      st.todoCount + ownedCount (mergeTemplate L u (extractFieldNames u) st).1 u := by
  rcases hm : matchOf L u with _ | ⟨i, b⟩
  · -- new-template branch
    have hnone := matchOf_eq_none_iff.mp hm
    have heq := @mergeTemplate_new_eq L u (extractFieldNames u) st hm
    rw [heq]
    have hgetnew : (L ++ [newEntryOf u (extractFieldNames u)])[L.length]? =
        some (newEntryOf u (extractFieldNames u)) := List.getElem?_concat_length _ _
    have hoidx : ownerIdx (L ++ [newEntryOf u (extractFieldNames u)]) u = some L.length := by
      refine findIndex_eq_some_of hgetnew (by simp [newEntryOf]) ?_
      intro j b' hj hb'
      rw [getElem?_append_left_of_lt hj] at hb'
      have := hnone.1 b' (mem_of_getElem? hb')
      simpa using this
    have hownu : Owns (L ++ [newEntryOf u (extractFieldNames u)]) u :=
      ⟨L.length, newEntryOf u (extractFieldNames u), hoidx, hgetnew, rfl,
        fun n hn => hasKey_buildNewFields_iff.mpr hn⟩
    refine ⟨?_, hownu, ?_⟩
    · intro t ht
      exact Owns_append_preserve (howns t ht) _
    · rw [ownedCount_eq hoidx hgetnew]
      show st.todoCount + (extractFieldNames u).length =
        st.todoCount + sentinelCount (newEntryOf u (extractFieldNames u)).fields
      rw [show (newEntryOf u (extractFieldNames u)).fields =
            buildNewFields (extractFieldNames u) from rfl]
      rw [sentinelCount_buildNewFields nodup_extractFieldNames]
  · -- matched branch
    obtain ⟨e0, hget0⟩ := matchOf_some_getElem hm
    have heq := @mergeTemplate_matched_eq L u (extractFieldNames u) st i b e0 hm hget0
    rw [heq]
    have hilt : i < L.length := (List.getElem?_eq_some.mp hget0).1
    have hgetset : (L.set i (updatedEntry e0 u (extractFieldNames u)))[i]? =
        some (updatedEntry e0 u (extractFieldNames u)) := getElem?_set_self_of_lt hilt
    have hxid : (updatedEntry e0 u (extractFieldNames u)).docuseal_template_id = u.id := rfl
    -- branch-specific facts
    cases b with
    | true =>
      have hfi := matchOf_some_true_inv hm
      obtain ⟨e0', hget0', hpe0, hfirst0⟩ := findIndex_eq_some_spec hfi
      have hee : e0 = e0' := by
        rw [hget0] at hget0'
        exact Option.some.inj hget0'
      subst hee
      have hid0 : e0.docuseal_template_id = u.id := by simpa using hpe0
      have hoidxu : ownerIdx (L.set i (updatedEntry e0 u (extractFieldNames u))) u = some i := by
        refine findIndex_eq_some_of hgetset (by simp [updatedEntry]) ?_
        intro j b' hj hb'
        rw [List.getElem?_set_ne (fun h => absurd h.symm (Nat.ne_of_lt hj))] at hb'
        exact hfirst0 j b' hj hb'
      have hownu : Owns (L.set i (updatedEntry e0 u (extractFieldNames u))) u :=
        ⟨i, updatedEntry e0 u (extractFieldNames u), hoidxu, hgetset, rfl,
          fun n hn => hasKey_mergeFields_of_mem hn⟩
      refine ⟨?_, hownu, ?_⟩
      · intro t ht
        refine Owns_set_preserve (howns t ht) (hxid ▸ Ne.symm (hdist t ht).1) ?_
        intro hcontra
        obtain ⟨j, et, hoj, hgetj, hnamet, -⟩ := howns t ht
        have hji : j = i := Option.some.inj (hoj.symm.trans hcontra)
        subst hji
        obtain ⟨et', hgetj', hidt, -⟩ := owner_spec hoj
        have : et' = e0 := by
          rw [hget0] at hgetj'
          exact (Option.some.inj hgetj').symm
        subst this
        exact (hdist t ht).1 (by rw [← hid0, ← hidt])
      · rw [ownedCount_eq hoidxu hgetset]
        rfl
    | false =>
      obtain ⟨hfinone, hfn⟩ := matchOf_some_false_inv hm
      have hnoid : ∀ e ∈ L, e.docuseal_template_id ≠ u.id := fun e he => by
        simpa using findIndex_eq_none_iff.mp hfinone e he
      obtain ⟨e0', hget0', hpn0, -⟩ := findIndex_eq_some_spec hfn
      have hee : e0 = e0' := by
        rw [hget0] at hget0'
        exact Option.some.inj hget0'
      subst hee
      have hn0 : normName e0.name = normName u.name := by simpa using hpn0
      have hoidxu : ownerIdx (L.set i (updatedEntry e0 u (extractFieldNames u))) u = some i := by
        refine findIndex_eq_some_of hgetset (by simp [updatedEntry]) ?_
        intro j b' hj hb'
        rw [List.getElem?_set_ne (fun h => absurd h.symm (Nat.ne_of_lt hj))] at hb'
        have := hnoid b' (mem_of_getElem? hb')
        simpa using this
      have hownu : Owns (L.set i (updatedEntry e0 u (extractFieldNames u))) u :=
        ⟨i, updatedEntry e0 u (extractFieldNames u), hoidxu, hgetset, rfl,
          fun n hn => hasKey_mergeFields_of_mem hn⟩
      refine ⟨?_, hownu, ?_⟩
      · intro t ht
        refine Owns_set_preserve (howns t ht) (hxid ▸ Ne.symm (hdist t ht).1) ?_
        intro hcontra
        obtain ⟨j, et, hoj, hgetj, hnamet, -⟩ := howns t ht
        have hji : j = i := Option.some.inj (hoj.symm.trans hcontra)
        subst hji
        have : et = e0 := by
          rw [hget0] at hgetj
          exact (Option.some.inj hgetj).symm
        subst this
        exact (hdist t ht).2 (by rw [← hn0, hnamet])
      · rw [ownedCount_eq hoidxu hgetset]
        rfl

/-- First-run invariant: folding the remaining catalog over a list in
which all processed templates are settled settles every template, and
the todo counter totals the settled entries' sentinel counts. -/
theorem run1_inv (rest : List DocuSealApiTemplate) :
    ∀ (done : List DocuSealApiTemplate) (L : List TemplateConfig) (st : SyncStats),
    List.Pairwise (fun a b => a.id ≠ b.id ∧ normName a.name ≠ normName b.name)
      (done ++ rest) →
    (∀ t ∈ done, Owns L t) →
    st.todoCount = (done.map (fun t => ownedCount L t)).sum →
    (∀ t ∈ done ++ rest, Owns (runMerge L rest st).1 t) ∧
    (runMerge L rest st).2.todoCount =
      ((done ++ rest).map (fun t => ownedCount (runMerge L rest st).1 t)).sum := by
  induction rest with
  | nil =>
    intro done L st hp ho hsum
    simpa [runMerge] using ⟨ho, hsum⟩
  | cons u rest ih =>
    intro done L st hp ho hsum
    have hdist : ∀ t ∈ done, t.id ≠ u.id ∧ normName t.name ≠ normName u.name := by
      rw [List.pairwise_append] at hp
      intro t ht
      exact hp.2.2 t ht u (List.mem_cons_self _ _)
    obtain ⟨hpres, hownu, htodo⟩ := @merge_step_inv L u st done hdist ho
    have ho' : ∀ t ∈ done ++ [u], Owns (mergeTemplate L u (extractFieldNames u) st).1 t := by
      intro t ht
      rcases List.mem_append.mp ht with h' | h'
      · exact (hpres t h').1
      · simp only [List.mem_singleton] at h'
        subst h'
        exact hownu
    have hsum' : (mergeTemplate L u (extractFieldNames u) st).2.todoCount =
        ((done ++ [u]).map
          (fun t => ownedCount (mergeTemplate L u (extractFieldNames u) st).1 t)).sum := by
      rw [List.map_append, List.sum_append]
      have hdone : (done.map
          (fun t => ownedCount (mergeTemplate L u (extractFieldNames u) st).1 t)) =
          done.map (fun t => ownedCount L t) :=
        List.map_congr_left (fun t ht => (hpres t ht).2)
      rw [hdone, htodo, hsum]
      simp [Nat.add_comm]
    have hp' : List.Pairwise
        (fun a b => a.id ≠ b.id ∧ normName a.name ≠ normName b.name)
        ((done ++ [u]) ++ rest) := by
      rw [← List.append_cons]
      exact hp
    have hmain := ih (done ++ [u]) (mergeTemplate L u (extractFieldNames u) st).1
      (mergeTemplate L u (extractFieldNames u) st).2 hp' ho' hsum'
    rw [← List.append_cons] at hmain
    exact hmain

/-- Second-run no-op: folding the catalog over a list in which every
template is already settled returns the list unchanged, records only
bare-name update labels, and adds the settled sentinel counts. -/
theorem run2_noop (ts : List DocuSealApiTemplate) :
    ∀ (L : List TemplateConfig) (st : SyncStats), (∀ t ∈ ts, Owns L t) →
    runMerge L ts st =
      (L, ⟨st.updated ++ ts.map (fun t => t.name), st.added, st.stale,
           st.todoCount + (ts.map (fun t => ownedCount L t)).sum⟩) := by
  induction ts with
  | nil =>
    intro L st h
    simp [runMerge]
  | cons u ts ih =>
    intro L st h
    obtain ⟨i, e, hoi, hget, hname, hfields⟩ := h u (List.mem_cons_self _ _)
    obtain ⟨e', hget', hid, -⟩ := owner_spec hoi
    have hee : e = e' := by
      rw [hget] at hget'
      exact Option.some.inj hget'
    subst hee
    have hm : matchOf L u = some (i, true) := matchOf_eq_some_id hoi
    have heq := @mergeTemplate_matched_eq L u (extractFieldNames u) st i true e hm hget
    have hmf : mergeFields e.fields (extractFieldNames u) = e.fields :=
      mergeFields_eq_self hfields
    have hue : updatedEntry e u (extractFieldNames u) = e := by
      obtain ⟨eid, en, ed, ef⟩ := e
      simp only [updatedEntry] at *
      rw [← hid, ← hname, hmf]
    have hset : L.set i (updatedEntry e u (extractFieldNames u)) = L := by
      rw [hue]
      exact set_eq_self_of_getElem? hget
    have hoc : ownedCount L u = sentinelCount e.fields := ownedCount_eq hoi hget
    show runMerge (mergeTemplate L u (extractFieldNames u) st).1 ts
        (mergeTemplate L u (extractFieldNames u) st).2 = _
    rw [heq, hset]
    have hrec := ih L
      ⟨st.updated ++ [updateLabel u true], st.added, st.stale,
        st.todoCount + sentinelCount (mergeFields e.fields (extractFieldNames u))⟩
      (fun t ht => h t (List.mem_cons_of_mem _ ht))
    rw [hrec]
    rw [hmf, ← hoc]
    rw [List.append_assoc, Nat.add_assoc]
    rfl

/-- C3 counterexample: with remote templates of distinct ids `1`, `2`
but names `A` and `a` that collide after case-insensitive trimming, the
second run over the first run's output reports a different
`todoCount` (4 instead of 3), refuting the unconditional fixed-point
claim. -/
theorem C3_idempotency_counterexample :
    (runMerge
        (runMerge []
          [⟨1, "A", some [⟨"x"⟩], none, none⟩, ⟨2, "a", some [⟨"y"⟩], none, none⟩]
          initStats).1
        [⟨1, "A", some [⟨"x"⟩], none, none⟩, ⟨2, "a", some [⟨"y"⟩], none, none⟩]
        initStats).2.todoCount ≠
      (runMerge []
        [⟨1, "A", some [⟨"x"⟩], none, none⟩, ⟨2, "a", some [⟨"y"⟩], none, none⟩]
        initStats).2.todoCount := by
  decide

/-- C3 (amended): when the remote catalog's identifiers are pairwise
distinct and its normalised names are pairwise distinct, a second run of
the merge fold over the first run's output with fresh stats returns the
identical template list, an empty `added`, and the same `todoCount` as
the first run. -/
theorem C3_idempotent_merge (L : List TemplateConfig) (ts : List DocuSealApiTemplate)
    (hids : List.Pairwise (fun a b => a.id ≠ b.id) ts)
    (hnames : List.Pairwise (fun a b => normName a.name ≠ normName b.name) ts) :
    (runMerge (runMerge L ts initStats).1 ts initStats).1 = (runMerge L ts initStats).1 ∧
    (runMerge (runMerge L ts initStats).1 ts initStats).2.added = [] ∧
    (runMerge (runMerge L ts initStats).1 ts initStats).2.todoCount =
      (runMerge L ts initStats).2.todoCount := by
  have hp : List.Pairwise
      (fun a b => a.id ≠ b.id ∧ normName a.name ≠ normName b.name) ts :=
    hids.and hnames
  have hinv := run1_inv ts [] L initStats (by simpa using hp) (by simp) (by simp [initStats])
  obtain ⟨howns, hsum⟩ := hinv
  simp only [List.nil_append] at howns hsum
  have h2 := run2_noop ts (runMerge L ts initStats).1 initStats howns
  refine ⟨?_, ?_, ?_⟩
  · rw [h2]
  · rw [h2]
    rfl
  · rw [h2]
    show initStats.todoCount +
      (ts.map (fun t => ownedCount (runMerge L ts initStats).1 t)).sum = _
    rw [hsum]
    simp [initStats]

/-- C3 witness: a singleton catalog (trivially pairwise-distinct) run
twice from an empty local list. -/
theorem C3_idempotent_merge_witness :
    List.Pairwise (fun a b => a.id ≠ b.id)
      [DocuSealApiTemplate.mk 1 "A" (some [⟨"x"⟩]) none none] ∧
    List.Pairwise (fun a b => normName a.name ≠ normName b.name)
      [DocuSealApiTemplate.mk 1 "A" (some [⟨"x"⟩]) none none] ∧
    ((runMerge (runMerge [] [DocuSealApiTemplate.mk 1 "A" (some [⟨"x"⟩]) none none] initStats).1
        [DocuSealApiTemplate.mk 1 "A" (some [⟨"x"⟩]) none none] initStats).1 =
      (runMerge [] [DocuSealApiTemplate.mk 1 "A" (some [⟨"x"⟩]) none none] initStats).1 ∧
    (runMerge (runMerge [] [DocuSealApiTemplate.mk 1 "A" (some [⟨"x"⟩]) none none] initStats).1
        [DocuSealApiTemplate.mk 1 "A" (some [⟨"x"⟩]) none none] initStats).2.added = [] ∧
    (runMerge (runMerge [] [DocuSealApiTemplate.mk 1 "A" (some [⟨"x"⟩]) none none] initStats).1
        [DocuSealApiTemplate.mk 1 "A" (some [⟨"x"⟩]) none none] initStats).2.todoCount =
      (runMerge [] [DocuSealApiTemplate.mk 1 "A" (some [⟨"x"⟩]) none none] initStats).2.todoCount) :=
  ⟨by decide, by decide,
    C3_idempotent_merge [] [DocuSealApiTemplate.mk 1 "A" (some [⟨"x"⟩]) none none]
      (by decide) (by decide)⟩

end PdfGenSync
